import Mathlib

/-!
Verification development for the LinuxFanControl core (`src/main.py`).

The Python core is shallowly embedded over exact rational arithmetic (`ℚ`
stands for Python floats, `ℤ` for Python ints).  Hardware file I/O is made
explicit: reads are drawn from environment records, and writes are logged as
events, so that every theorem quantifies over all possible hardware
behaviours the code can observe.
-/

set_option maxHeartbeats 1000000

/-- `clamp(v, lo, hi) = max(lo, min(hi, v))` from `main.py`. -/
def qclamp (v lo hi : ℚ) : ℚ := max lo (min hi v)

/-- `milli_to_c`: hwmon temperatures above `200` are taken to be
millidegrees Celsius and divided by `1000`; everything else is returned
unchanged (`main.py`, lines 170-174). -/
def milli_to_c (val : ℚ) : ℚ := if 200 < val then val / 1000 else val

/-- Python `round`: round half to even (banker's rounding), as used by
`int(round(...))` in the percent-to-raw conversions. -/
def pyRound (x : ℚ) : ℤ :=
  let f := ⌊x⌋
  let frac := x - f
  if frac < 1/2 then f
  else if 1/2 < frac then f + 1
  else if Even f then f else f + 1

/-! ### Curve (piecewise linear, `Curve.eval`, `main.py` lines 185-210) -/

/-- Ordering of control points by their temperature (the sort key
`lambda p: p[0]` of `Curve.sorted_points`). -/
def leX (p q : ℚ × ℚ) : Prop := p.1 ≤ q.1

instance : DecidableRel leX := fun p q => inferInstanceAs (Decidable (p.1 ≤ q.1))

instance : IsTotal (ℚ × ℚ) leX := ⟨fun a b => le_total a.1 b.1⟩

instance : IsTrans (ℚ × ℚ) leX := ⟨fun _ _ _ h h' => le_trans h h'⟩

/-- `Curve.sorted_points`: a stable sort of the control points by
temperature.  Python's `sorted(..., key=lambda p: p[0])` is a stable sort by
the first component; `List.insertionSort leX` is extensionally the same
stable by-key sort. -/
def sortedPoints (ps : List (ℚ × ℚ)) : List (ℚ × ℚ) := ps.insertionSort leX

/-- Value of one linear segment of `Curve.eval`: the body executed when
`x0 <= x <= x1` (degenerate segments return `y1`). -/
def segVal (x : ℚ) (p q : ℚ × ℚ) : ℚ :=
  if q.1 = p.1 then q.2 else p.2 + (x - p.1) / (q.1 - p.1) * (q.2 - p.2)

/-- The `for i in range(1, len(pts))` loop of `Curve.eval`: walk consecutive
pairs of points and return the first matching segment's value. -/
def evalLoop (x : ℚ) : (ℚ × ℚ) → List (ℚ × ℚ) → Option ℚ
  | _, [] => none
  | p, q :: rest =>
    if p.1 ≤ x ∧ x ≤ q.1 then some (segVal x p q) else evalLoop x q rest

/-- The last point `pts[-1]` of a nonempty list `p :: rest`. -/
def lastP : (ℚ × ℚ) → List (ℚ × ℚ) → ℚ × ℚ
  | p, [] => p
  | _, q :: t => lastP q t

@[simp] lemma lastP_nil (p : ℚ × ℚ) : lastP p [] = p := rfl

@[simp] lemma lastP_cons (p q : ℚ × ℚ) (t : List (ℚ × ℚ)) :
    lastP p (q :: t) = lastP q t := rfl

/-- Body of `Curve.eval` on an already sorted point list. -/
def evalPts (pts : List (ℚ × ℚ)) (x : ℚ) : ℚ :=
  match pts with
  | [] => 0
  | p0 :: rest =>
    if x ≤ p0.1 then p0.2
    else if (lastP p0 rest).1 ≤ x then (lastP p0 rest).2
    else (evalLoop x p0 rest).getD (lastP p0 rest).2

/-- `Curve.eval` (`main.py` lines 194-210): sort the points, clamp at both
ends, otherwise linearly interpolate on the first bracketing segment. -/
def curveEval (ps : List (ℚ × ℚ)) (x : ℚ) : ℚ := evalPts (sortedPoints ps) x

example : curveEval [(20, 20), (40, 40), (60, 60), (80, 100)] 50 = 50 := by
  norm_num [curveEval, sortedPoints, evalPts, evalLoop, segVal, leX]

example : curveEval [(1, 10), (1, 20)] 1 = 10 := by
  norm_num [curveEval, sortedPoints, evalPts, evalLoop, segVal, leX]

/-! ### Curve lemmas -/

/-- Points sorted (non-strictly) by temperature. -/
def SortedX (l : List (ℚ × ℚ)) : Prop := l.Chain' leX

/-- Duty values non-decreasing along the list. -/
def MonoY (l : List (ℚ × ℚ)) : Prop := l.Chain' fun p q => p.2 ≤ q.2

lemma chain_le_lastP {α : Type} [Preorder α] (f : ℚ × ℚ → α) :
    ∀ (s : List (ℚ × ℚ)) (p : ℚ × ℚ),
      List.Chain' (fun a b => f a ≤ f b) (p :: s) → f p ≤ f (lastP p s)
  | [], _, _ => le_refl _
  | q :: t, p, h => by
    rcases List.chain'_cons.1 h with ⟨hpq, ht⟩
    have hrec := chain_le_lastP f t q ht
    simpa using le_trans hpq hrec

lemma getLast?_eq_lastP (p0 : ℚ × ℚ) :
    ∀ rest : List (ℚ × ℚ), (p0 :: rest).getLast? = some (lastP p0 rest) := by
  intro rest
  induction rest generalizing p0 with
  | nil => rfl
  | cons q t ih => simpa using ih q

lemma segVal_bounds {x : ℚ} {p q : ℚ × ℚ} (hx : p.1 ≤ q.1) (hy : p.2 ≤ q.2)
    (h1 : p.1 ≤ x) (h2 : x ≤ q.1) : p.2 ≤ segVal x p q ∧ segVal x p q ≤ q.2 := by
  unfold segVal
  by_cases hd : q.1 = p.1
  · rw [if_pos hd]; exact ⟨hy, le_refl _⟩
  · rw [if_neg hd]
    have hlt : p.1 < q.1 := lt_of_le_of_ne hx fun h => hd h.symm
    have hD : 0 < q.1 - p.1 := by linarith
    have ht0 : 0 ≤ (x - p.1) / (q.1 - p.1) := div_nonneg (by linarith) (le_of_lt hD)
    have ht1 : (x - p.1) / (q.1 - p.1) ≤ 1 := by rw [div_le_one hD]; linarith
    constructor
    · have := mul_nonneg ht0 (sub_nonneg.2 hy)
      linarith
    · have := mul_le_of_le_one_left (sub_nonneg.2 hy) ht1
      linarith

lemma segVal_mono {x x' : ℚ} {p q : ℚ × ℚ} (hx : p.1 ≤ q.1) (hy : p.2 ≤ q.2)
    (hxx : x ≤ x') : segVal x p q ≤ segVal x' p q := by
  unfold segVal
  by_cases hd : q.1 = p.1
  · simp only [if_pos hd]; exact le_refl _
  · simp only [if_neg hd]
    have hlt : p.1 < q.1 := lt_of_le_of_ne hx fun h => hd h.symm
    have hD : 0 < q.1 - p.1 := by linarith
    have h1 : (x - p.1) / (q.1 - p.1) ≤ (x' - p.1) / (q.1 - p.1) :=
      (div_le_div_iff_of_pos_right hD).2 (by linarith)
    have h2 := mul_le_mul_of_nonneg_right h1 (sub_nonneg.2 hy)
    linarith

lemma evalLoop_bounds {x : ℚ} :
    ∀ {s : List (ℚ × ℚ)} {p : ℚ × ℚ} {v : ℚ},
      SortedX (p :: s) → MonoY (p :: s) → p.1 ≤ x →
      evalLoop x p s = some v → p.2 ≤ v ∧ v ≤ (lastP p s).2 := by
  intro s
  induction s with
  | nil => intro p v _ _ _ h; simp [evalLoop] at h
  | cons q t ih =>
    intro p v hs hy hpx h
    rcases List.chain'_cons.1 hs with ⟨hsq, hs'⟩
    rcases List.chain'_cons.1 hy with ⟨hyq, hy'⟩
    rw [evalLoop] at h
    by_cases hc : p.1 ≤ x ∧ x ≤ q.1
    · rw [if_pos hc] at h
      have hv : segVal x p q = v := Option.some.inj h
      obtain ⟨hb1, hb2⟩ := segVal_bounds hsq hyq hc.1 hc.2
      have hlast : q.2 ≤ (lastP q t).2 := chain_le_lastP Prod.snd t q hy'
      constructor
      · rw [← hv]; exact hb1
      · rw [← hv]; simpa using le_trans hb2 hlast
    · rw [if_neg hc] at h
      have hqx : q.1 ≤ x := by
        rcases not_and_or.1 hc with h' | h'
        · exact absurd hpx h'
        · exact le_of_lt (not_le.1 h')
      obtain ⟨hb1, hb2⟩ := ih hs' hy' hqx h
      exact ⟨le_trans hyq hb1, by simpa using hb2⟩

lemma evalLoop_mono {x x' : ℚ} (hxx : x ≤ x') :
    ∀ {s : List (ℚ × ℚ)} {p : ℚ × ℚ} {v v' : ℚ},
      SortedX (p :: s) → MonoY (p :: s) → p.1 ≤ x →
      evalLoop x p s = some v → evalLoop x' p s = some v' → v ≤ v' := by
  intro s
  induction s with
  | nil => intro p v v' _ _ _ h _; simp [evalLoop] at h
  | cons q t ih =>
    intro p v v' hs hy hpx h h'
    rcases List.chain'_cons.1 hs with ⟨hsq, hs'⟩
    rcases List.chain'_cons.1 hy with ⟨hyq, hy'⟩
    have hpx' : p.1 ≤ x' := le_trans hpx hxx
    rw [evalLoop] at h h'
    by_cases hc : p.1 ≤ x ∧ x ≤ q.1
    · rw [if_pos hc] at h
      have hv : segVal x p q = v := Option.some.inj h
      by_cases hc' : p.1 ≤ x' ∧ x' ≤ q.1
      · rw [if_pos hc'] at h'
        have hv' : segVal x' p q = v' := Option.some.inj h'
        rw [← hv, ← hv']
        exact segVal_mono hsq hyq hxx
      · rw [if_neg hc'] at h'
        have hqx' : q.1 ≤ x' := by
          rcases not_and_or.1 hc' with h'' | h''
          · exact absurd hpx' h''
          · exact le_of_lt (not_le.1 h'')
        have hub : v ≤ q.2 := by
          rw [← hv]; exact (segVal_bounds hsq hyq hc.1 hc.2).2
        have hlb : q.2 ≤ v' := (evalLoop_bounds hs' hy' hqx' h').1
        exact le_trans hub hlb
    · rw [if_neg hc] at h
      have hqx : q.1 ≤ x := by
        rcases not_and_or.1 hc with h'' | h''
        · exact absurd hpx h''
        · exact le_of_lt (not_le.1 h'')
      have hc' : ¬(p.1 ≤ x' ∧ x' ≤ q.1) := by
        intro ⟨_, hx'q⟩
        have : q.1 ≤ q.1 := le_trans hqx (le_trans hxx hx'q)
        have hxq : x ≤ q.1 := le_trans hxx hx'q
        exact hc ⟨hpx, hxq⟩
      rw [if_neg hc'] at h'
      exact ih hs' hy' hqx h h'

lemma evalLoop_isSome {x : ℚ} :
    ∀ {s : List (ℚ × ℚ)} {p : ℚ × ℚ}, SortedX (p :: s) → p.1 ≤ x →
      x < (lastP p s).1 → ∃ v, evalLoop x p s = some v := by
  intro s
  induction s with
  | nil => intro p _ hpx hlt; simp at hlt; exact absurd hpx (not_le.2 hlt)
  | cons q t ih =>
    intro p hs hpx hlt
    rcases List.chain'_cons.1 hs with ⟨_, hs'⟩
    rw [evalLoop]
    by_cases hxq : x ≤ q.1
    · rw [if_pos ⟨hpx, hxq⟩]; exact ⟨_, rfl⟩
    · rw [if_neg fun h => hxq h.2]
      exact ih hs' (le_of_lt (not_le.1 hxq)) (by simpa using hlt)

lemma evalPts_lb {p0 : ℚ × ℚ} {rest : List (ℚ × ℚ)}
    (hs : SortedX (p0 :: rest)) (hy : MonoY (p0 :: rest)) (x : ℚ) :
    p0.2 ≤ evalPts (p0 :: rest) x := by
  have hlast : p0.2 ≤ (lastP p0 rest).2 := chain_le_lastP Prod.snd rest p0 hy
  simp only [evalPts]
  by_cases h1 : x ≤ p0.1
  · rw [if_pos h1]
  · rw [if_neg h1]
    by_cases h2 : (lastP p0 rest).1 ≤ x
    · rw [if_pos h2]; exact hlast
    · rw [if_neg h2]
      cases hv : evalLoop x p0 rest with
      | none => simpa using hlast
      | some v =>
        simp only [Option.getD_some]
        exact (evalLoop_bounds hs hy (le_of_lt (not_le.1 h1)) hv).1

lemma evalPts_ub {p0 : ℚ × ℚ} {rest : List (ℚ × ℚ)}
    (hs : SortedX (p0 :: rest)) (hy : MonoY (p0 :: rest)) (x : ℚ) :
    evalPts (p0 :: rest) x ≤ (lastP p0 rest).2 := by
  have hlast : p0.2 ≤ (lastP p0 rest).2 := chain_le_lastP Prod.snd rest p0 hy
  simp only [evalPts]
  by_cases h1 : x ≤ p0.1
  · rw [if_pos h1]; exact hlast
  · rw [if_neg h1]
    by_cases h2 : (lastP p0 rest).1 ≤ x
    · rw [if_pos h2]
    · rw [if_neg h2]
      cases hv : evalLoop x p0 rest with
      | none => simp
      | some v =>
        simp only [Option.getD_some]
        exact (evalLoop_bounds hs hy (le_of_lt (not_le.1 h1)) hv).2

lemma evalPts_mono {pts : List (ℚ × ℚ)} (hs : SortedX pts) (hy : MonoY pts)
    {x x' : ℚ} (hxx : x ≤ x') : evalPts pts x ≤ evalPts pts x' := by
  cases pts with
  | nil => simp [evalPts]
  | cons p0 rest =>
    by_cases h1 : x ≤ p0.1
    · calc evalPts (p0 :: rest) x = p0.2 := by simp only [evalPts]; rw [if_pos h1]
        _ ≤ evalPts (p0 :: rest) x' := evalPts_lb hs hy x'
    · have h1' : ¬ x' ≤ p0.1 := fun h => h1 (le_trans hxx h)
      by_cases h2 : (lastP p0 rest).1 ≤ x
      · have h2' : (lastP p0 rest).1 ≤ x' := le_trans h2 hxx
        simp only [evalPts]
        rw [if_neg h1, if_pos h2, if_neg h1', if_pos h2']
      · by_cases h2' : (lastP p0 rest).1 ≤ x'
        · calc evalPts (p0 :: rest) x ≤ (lastP p0 rest).2 := evalPts_ub hs hy x
            _ = evalPts (p0 :: rest) x' := by
                simp only [evalPts]; rw [if_neg h1', if_pos h2']
        · obtain ⟨v, hv⟩ :=
            evalLoop_isSome hs (le_of_lt (not_le.1 h1)) (not_le.1 h2)
          obtain ⟨v', hv'⟩ :=
            evalLoop_isSome hs (le_of_lt (not_le.1 h1')) (not_le.1 h2')
          have hm := evalLoop_mono hxx hs hy (le_of_lt (not_le.1 h1)) hv hv'
          simp only [evalPts]
          rw [if_neg h1, if_neg h2, if_neg h1', if_neg h2', hv, hv']
          simpa using hm

lemma sortedPoints_sortedX (ps : List (ℚ × ℚ)) : SortedX (sortedPoints ps) :=
  (List.sorted_insertionSort leX ps).chain'

lemma sortedPoints_perm (ps : List (ℚ × ℚ)) : List.Perm (sortedPoints ps) ps :=
  List.perm_insertionSort leX ps

lemma sortedPoints_monoY {ps : List (ℚ × ℚ)}
    (hy : List.Chain' (· ≤ ·) ((sortedPoints ps).map Prod.snd)) :
    MonoY (sortedPoints ps) :=
  (List.chain'_map Prod.snd).1 hy

/-- C7: for a curve with at least two points whose duty values are
non-decreasing in temperature order, `Curve.eval` is monotone
non-decreasing in the input temperature and clamps to the first point's
duty below the lowest control temperature and to the last point's duty
above the highest. -/
theorem claim_c7_eval_monotone (ps : List (ℚ × ℚ)) (h2 : 2 ≤ ps.length)
    (hy : List.Chain' (· ≤ ·) ((sortedPoints ps).map Prod.snd)) :
    (∀ x x', x ≤ x' → curveEval ps x ≤ curveEval ps x') ∧
    (∀ p0 ∈ (sortedPoints ps).head?, ∀ x, x < p0.1 → curveEval ps x = p0.2) ∧
    (∀ pl ∈ (sortedPoints ps).getLast?, ∀ x, pl.1 < x → curveEval ps x = pl.2) := by
  have hs := sortedPoints_sortedX ps
  have hy' := sortedPoints_monoY hy
  refine ⟨fun x x' hxx => evalPts_mono hs hy' hxx, ?_, ?_⟩
  · intro p0 hp0 x hx
    cases hps : sortedPoints ps with
    | nil => simp [hps] at hp0
    | cons q rest =>
      rw [hps] at hp0
      simp only [List.head?_cons, Option.mem_def, Option.some.injEq] at hp0
      subst hp0
      rw [curveEval, hps]
      simp only [evalPts]
      rw [if_pos (le_of_lt hx)]
  · intro pl hpl x hx
    cases hps : sortedPoints ps with
    | nil => simp [hps] at hpl
    | cons q rest =>
      rw [hps] at hpl
      rw [getLast?_eq_lastP] at hpl
      simp only [Option.mem_def, Option.some.injEq] at hpl
      subst hpl
      rw [hps] at hs
      have hq : q.1 ≤ (lastP q rest).1 := chain_le_lastP Prod.fst rest q hs
      rw [curveEval, hps]
      simp only [evalPts]
      rw [if_neg (not_le.2 (lt_of_le_of_lt hq hx)), if_pos (le_of_lt hx)]

/-- C7 witness: the default curve `[(20,20),(40,40),(60,60),(80,100)]`
satisfies the hypotheses, and evaluation at `25 ≤ 30` is monotone. -/
theorem claim_c7_witness :
    curveEval [(20, 20), (40, 40), (60, 60), (80, 100)] 25 ≤
      curveEval [(20, 20), (40, 40), (60, 60), (80, 100)] 30 :=
  (claim_c7_eval_monotone _ (by norm_num)
    (by norm_num [sortedPoints, leX, List.chain'_cons])).1 25 30 (by norm_num)

/-! ### Exact round-trip at control points (C8) -/

/-- Strict ordering of control points by temperature. -/
def LtX (l : List (ℚ × ℚ)) : Prop := l.Pairwise fun p q => p.1 < q.1

lemma ltX_head_lt {p : ℚ × ℚ} {s : List (ℚ × ℚ)} (h : LtX (p :: s)) :
    ∀ z ∈ s, p.1 < z.1 :=
  (List.pairwise_cons.1 h).1

lemma ltX_head_le_lastP {p : ℚ × ℚ} {s : List (ℚ × ℚ)} (h : LtX (p :: s)) :
    p.1 ≤ (lastP p s).1 := by
  have hch : List.Chain' (fun a b : ℚ × ℚ => a.1 ≤ b.1) (p :: s) :=
    (h.imp fun hlt => le_of_lt hlt).chain'
  exact chain_le_lastP Prod.fst s p hch

lemma eq_lastP_of_ge :
    ∀ {t : List (ℚ × ℚ)} {q z : ℚ × ℚ}, LtX (q :: t) → z ∈ q :: t →
      (lastP q t).1 ≤ z.1 → z = lastP q t := by
  intro t
  induction t with
  | nil =>
    intro q z _ hz _
    simpa using List.mem_singleton.1 hz
  | cons q' t' ih =>
    intro q z hp hz hge
    rcases List.pairwise_cons.1 hp with ⟨hq, hp'⟩
    rcases List.mem_cons.1 hz with hzq | hz'
    · exfalso
      have h1 : q.1 < q'.1 := hq q' (List.mem_cons_self _ _)
      have h2 : q'.1 ≤ (lastP q' t').1 := ltX_head_le_lastP hp'
      rw [hzq] at hge
      simp only [lastP_cons] at hge
      linarith
    · simpa using ih hp' hz' (by simpa using hge)

lemma evalLoop_roundtrip :
    ∀ {s : List (ℚ × ℚ)} {p z : ℚ × ℚ}, LtX (p :: s) → z ∈ s →
      evalLoop z.1 p s = some z.2 := by
  intro s
  induction s with
  | nil => intro p z _ hz; simp at hz
  | cons q t ih =>
    intro p z hp hz
    rcases List.pairwise_cons.1 hp with ⟨hq, hp'⟩
    have hpq : p.1 < q.1 := hq q (List.mem_cons_self _ _)
    rcases List.mem_cons.1 hz with hzq | hz'
    · subst hzq
      rw [evalLoop, if_pos ⟨le_of_lt hpq, le_refl _⟩]
      have hne : z.1 ≠ p.1 := ne_of_gt hpq
      have hne' : z.1 - p.1 ≠ 0 := sub_ne_zero.2 hne
      rw [segVal, if_neg hne, div_self hne']
      ring_nf
    · have hqz : q.1 < z.1 := ltX_head_lt hp' z hz'
      rw [evalLoop, if_neg fun hc => absurd hc.2 (not_le.2 hqz)]
      exact ih hp' hz'

lemma evalPts_roundtrip :
    ∀ {pts : List (ℚ × ℚ)}, LtX pts → ∀ z ∈ pts, evalPts pts z.1 = z.2 := by
  intro pts hp z hz
  cases pts with
  | nil => simp at hz
  | cons p0 rest =>
    simp only [evalPts]
    by_cases h1 : z.1 ≤ p0.1
    · rcases List.mem_cons.1 hz with hzp | hz'
      · rw [if_pos h1, hzp]
      · exact absurd h1 (not_le.2 (ltX_head_lt hp z hz'))
    · have hz' : z ∈ rest := by
        rcases List.mem_cons.1 hz with hzp | hz'
        · exact absurd (le_of_eq (congrArg Prod.fst hzp)) h1
        · exact hz'
      rw [if_neg h1]
      by_cases h2 : (lastP p0 rest).1 ≤ z.1
      · rw [if_pos h2, eq_lastP_of_ge hp hz h2]
      · rw [if_neg h2, evalLoop_roundtrip hp hz']
        rfl

/-- C8 counterexample: with duplicated temperatures `[(1,10),(1,20)]` the
control point `(1,20)` is defined, yet `Curve.eval` at `1` returns `10`
(the earlier tied point's duty), so `eval(x_i) = y_i` fails for that point
and the tie is not resolved by the later point's duty. -/
theorem claim_c8_counterexample :
    ((1 : ℚ), (20 : ℚ)) ∈ [((1 : ℚ), (10 : ℚ)), (1, 20)] ∧
    curveEval [((1 : ℚ), (10 : ℚ)), (1, 20)] 1 = 10 ∧ (10 : ℚ) ≠ 20 := by
  refine ⟨by simp, ?_, by norm_num⟩
  norm_num [curveEval, sortedPoints, evalPts, evalLoop, segVal, leX]

/-- C8 amended: for every curve whose control points have pairwise distinct
temperatures, evaluating the curve at a control point's temperature returns
exactly that point's duty. -/
theorem claim_c8_roundtrip (ps : List (ℚ × ℚ))
    (hx : ps.Pairwise fun p q => p.1 ≠ q.1) :
    ∀ p ∈ ps, curveEval ps p.1 = p.2 := by
  intro p hp
  have hperm := sortedPoints_perm ps
  have hsorted : (sortedPoints ps).Pairwise leX :=
    List.sorted_insertionSort leX ps
  have hne : (sortedPoints ps).Pairwise fun p q => p.1 ≠ q.1 :=
    (hperm.pairwise_iff fun hab => Ne.symm hab).2 hx
  have hlt : LtX (sortedPoints ps) :=
    (hsorted.and hne).imp fun h => lt_of_le_of_ne h.1 h.2
  exact evalPts_roundtrip hlt p (hperm.mem_iff.2 hp)

/-- C8 witness: the distinct-temperature curve `[(20,20),(40,40)]`
round-trips at its control point `(40,40)`. -/
theorem claim_c8_witness : curveEval [((20 : ℚ), (20 : ℚ)), (40, 40)] 40 = 40 :=
  claim_c8_roundtrip _ (by norm_num) (40, 40) (by simp)

/-- C9 counterexample: `-300` has magnitude above `200` but `milli_to_c`
returns it unchanged instead of dividing by `1000`. -/
theorem claim_c9_counterexample :
    200 < |(-300 : ℚ)| ∧ milli_to_c (-300) = -300 ∧ ((-300 : ℚ)) ≠ -300 / 1000 := by
  refine ⟨by norm_num, ?_, by norm_num⟩
  norm_num [milli_to_c]

/-- C9 amended: `milli_to_c` divides by `1000` exactly when the raw value
exceeds `200` (not when its magnitude does): readings `≤ 200`, including
all negative ones, are returned unchanged. -/
theorem claim_c9_milli_to_c (v : ℚ) :
    (200 < v → milli_to_c v = v / 1000) ∧ (v ≤ 200 → milli_to_c v = v) := by
  constructor
  · intro h; rw [milli_to_c, if_pos h]
  · intro h; rw [milli_to_c, if_neg (not_lt.2 h)]

/-- C9 witness: `300` is rescaled to `3/10` and `100` is kept. -/
theorem claim_c9_witness :
    milli_to_c 300 = 300 / 1000 ∧ milli_to_c 100 = 100 :=
  ⟨(claim_c9_milli_to_c 300).1 (by norm_num), (claim_c9_milli_to_c 100).2 (by norm_num)⟩

/-- C10: `Curve.eval` is total on degenerate point lists: the empty curve
evaluates to `0` everywhere and a one-point curve evaluates to that point's
duty everywhere. -/
theorem claim_c10_eval_total (x x0 y0 : ℚ) :
    curveEval [] x = 0 ∧ curveEval [(x0, y0)] x = y0 := by
  constructor
  · rfl
  · rw [curveEval]
    have : sortedPoints [(x0, y0)] = [(x0, y0)] := rfl
    rw [this]
    simp only [evalPts, lastP_nil, evalLoop]
    split <;> simp

/-! ### Calibrator (`Calibrator.calibrate`, `main.py` lines 544-626)

The hardware environment of one calibration run: tachometer readings are
functions of the duty written just before the read (each duty is visited at
most once per phase, so this is fully general), and the cooperative
cancellation callback is a stream indexed by the number of polls made so
far.  Duty-file writes are modelled as always succeeding; the logged value
of each write is the duty percent commanded by `safe_write`
(`clamp(max(floor_pct, pct), 0, 100)`). -/
structure CalEnv where
  rpmUp : ℤ → Option ℤ
  rpmDown : ℤ → Option ℤ
  cancel : ℕ → Bool

/-- Result of `Calibrator.calibrate`: `aborted` (cancellation honoured),
`noSpin end` (`{"ok": False, "error": "No spin detected…", "min_pct": end}`)
or `success spinup min_pct rpm_at_min`. -/
inductive CalOutcome where
  | aborted : CalOutcome
  | noSpin : ℤ → CalOutcome
  | success : ℤ → ℤ → ℤ → CalOutcome
  deriving DecidableEq

/-- Python `range(a, b + 1, step)` for a positive step: ascending duties
from `a` to at most `b`. -/
def rangeAsc (a b step : ℤ) : List ℤ :=
  if a ≤ b then
    (List.range ((b - a).toNat / step.toNat + 1)).map fun k : ℕ => a + (k : ℤ) * step
  else []

/-- Python `range(a, b - 1, -step)` for a positive step: descending duties
from `a` down to at least `b`. -/
def rangeDesc (a b step : ℤ) : List ℤ :=
  if b ≤ a then
    (List.range ((a - b).toNat / step.toNat + 1)).map fun k : ℕ => a - (k : ℤ) * step
  else []

/-- Duty percent commanded by `safe_write(pct)`:
`_write_pwm` clamps `max(floor_pct, pct)` to `[0, 100]`. -/
def safeWriteVal (floor pct : ℤ) : ℚ := qclamp (max floor pct : ℤ) 0 100

/-- Whether a tachometer reading is present and at least the threshold
(`rpm is not None and rpm >= rpm_threshold`). -/
def rpmGood (rpm : ℤ → Option ℤ) (thr d : ℤ) : Bool :=
  match rpm d with
  | some r => decide (thr ≤ r)
  | none => false

/-- The spin-up sweep of `calibrate`: walk the ascending duty list; at each
duty poll cancellation, write the duty, poll again, then read the
tachometer; stop at the first duty whose reading is present and at least
the threshold.  Returns either an early outcome (aborted) or the found
`(spinup, rpm_at_min)` with the updated poll counter and write log. -/
def upLoop (env : CalEnv) (floor thr : ℤ) :
    List ℤ → ℕ → List ℚ → (CalOutcome × List ℚ) ⊕ (Option (ℤ × ℤ) × ℕ × List ℚ)
  | [], k, ws => .inr (none, k, ws)
  | d :: rest, k, ws =>
    if env.cancel k then .inl (.aborted, ws)
    else
      let ws2 := ws ++ [safeWriteVal floor d]
      if env.cancel (k + 1) then .inl (.aborted, ws2)
      else
        match env.rpmUp d with
        | some r =>
          if thr ≤ r then .inr (some (d, r), k + 2, ws2)
          else upLoop env floor thr rest (k + 2) ws2
        | none => upLoop env floor thr rest (k + 2) ws2

/-- The min-stable sweep of `calibrate`: walk the descending duty list from
the spin-up duty; keep lowering `min_stable` while the reading stays at or
above threshold; break at the first missing or below-threshold reading. -/
def downLoop (env : CalEnv) (floor thr : ℤ) :
    List ℤ → ℕ → List ℚ → ℤ → (CalOutcome × List ℚ) ⊕ (ℤ × ℕ × List ℚ)
  | [], k, ws, m => .inr (m, k, ws)
  | d :: rest, k, ws, m =>
    if env.cancel k then .inl (.aborted, ws)
    else
      let ws2 := ws ++ [safeWriteVal floor d]
      if env.cancel (k + 1) then .inl (.aborted, ws2)
      else
        match env.rpmDown d with
        | some r =>
          if thr ≤ r then downLoop env floor thr rest (k + 2) ws2 d
          else .inr (m, k + 2, ws2)
        | none => .inr (m, k + 2, ws2)

/-- `Calibrator.calibrate`: spin-up sweep from `max(start, floor)` to `end`,
then min-stable sweep back down to `max(start, floor)`, then a final
`safe_write(min_stable)`.  Returns the outcome together with the full log
of duty percents commanded. -/
def calibrate (env : CalEnv) (start endP step thr floor : ℤ) :
    CalOutcome × List ℚ :=
  let lo := max start floor
  match upLoop env floor thr (rangeAsc lo endP step) 0 [] with
  | .inl (out, ws) => (out, ws)
  | .inr (none, _, ws) => (.noSpin endP, ws)
  | .inr (some (sp, r), k, ws) =>
    match downLoop env floor thr (rangeDesc sp lo step) k ws sp with
    | .inl (out, ws2) => (out, ws2)
    | .inr (m, _, ws2) => (.success sp m r, ws2 ++ [safeWriteVal floor m])

/-! ### Calibrator lemmas -/

/-- Last element of a list, with a default (the running `min_stable`). -/
def lastOr (dflt : ℤ) : List ℤ → ℤ
  | [] => dflt
  | d :: t => lastOr d t

@[simp] lemma lastOr_nil (d : ℤ) : lastOr d [] = d := rfl

@[simp] lemma lastOr_cons (d a : ℤ) (t : List ℤ) : lastOr d (a :: t) = lastOr a t := rfl

lemma lastOr_mem : ∀ (l : List ℤ) (d : ℤ), lastOr d l = d ∨ lastOr d l ∈ l
  | [], _ => Or.inl rfl
  | a :: t, d => by
    rcases lastOr_mem t a with h | h
    · right; rw [lastOr_cons, h]; exact List.mem_cons_self _ _
    · right; rw [lastOr_cons]; exact List.mem_cons_of_mem _ h

lemma rangeAsc_mem_bounds {a b step d : ℤ} (hstep : 1 ≤ step)
    (hd : d ∈ rangeAsc a b step) : a ≤ d ∧ d ≤ b := by
  rw [rangeAsc] at hd
  by_cases hab : a ≤ b
  · rw [if_pos hab] at hd
    rcases List.mem_map.1 hd with ⟨k, hk, rfl⟩
    rw [List.mem_range] at hk
    have hs0 : (0 : ℤ) < step := by linarith
    have hks : (k : ℤ) * step ≥ 0 := mul_nonneg (Int.natCast_nonneg k) (by linarith)
    constructor
    · linarith
    · have hk' : k ≤ (b - a).toNat / step.toNat := Nat.lt_succ_iff.1 hk
      have hstep' : 0 < step.toNat := by
        have := Int.toNat_of_nonneg (by linarith : (0:ℤ) ≤ step)
        omega
      have hmul : k * step.toNat ≤ (b - a).toNat :=
        (Nat.le_div_iff_mul_le hstep').1 hk'
      have hcast : ((k * step.toNat : ℕ) : ℤ) ≤ (((b - a).toNat : ℕ) : ℤ) :=
        Int.ofNat_le.2 hmul
      have h1 : ((step.toNat : ℕ) : ℤ) = step := Int.toNat_of_nonneg (by linarith)
      have h2 : (((b - a).toNat : ℕ) : ℤ) = b - a :=
        Int.toNat_of_nonneg (by linarith)
      push_cast at hcast
      rw [h1, h2] at hcast
      linarith
  · rw [if_neg hab] at hd
    simp at hd

lemma rangeDesc_mem_bounds {a b step d : ℤ} (hstep : 1 ≤ step)
    (hd : d ∈ rangeDesc a b step) : b ≤ d ∧ d ≤ a := by
  rw [rangeDesc] at hd
  by_cases hab : b ≤ a
  · rw [if_pos hab] at hd
    rcases List.mem_map.1 hd with ⟨k, hk, rfl⟩
    rw [List.mem_range] at hk
    have hks : (k : ℤ) * step ≥ 0 := mul_nonneg (Int.natCast_nonneg k) (by linarith)
    constructor
    · have hk' : k ≤ (a - b).toNat / step.toNat := Nat.lt_succ_iff.1 hk
      have hstep' : 0 < step.toNat := by
        have := Int.toNat_of_nonneg (by linarith : (0:ℤ) ≤ step)
        omega
      have hmul : k * step.toNat ≤ (a - b).toNat :=
        (Nat.le_div_iff_mul_le hstep').1 hk'
      have hcast : ((k * step.toNat : ℕ) : ℤ) ≤ (((a - b).toNat : ℕ) : ℤ) :=
        Int.ofNat_le.2 hmul
      have h1 : ((step.toNat : ℕ) : ℤ) = step := Int.toNat_of_nonneg (by linarith)
      have h2 : (((a - b).toNat : ℕ) : ℤ) = a - b :=
        Int.toNat_of_nonneg (by linarith)
      push_cast at hcast
      rw [h1, h2] at hcast
      linarith
    · linarith
  · rw [if_neg hab] at hd
    simp at hd

lemma upLoop_inl {env : CalEnv} {floor thr : ℤ} :
    ∀ {ds : List ℤ} {k : ℕ} {ws ws' : List ℚ} {out : CalOutcome},
      upLoop env floor thr ds k ws = .inl (out, ws') → out = .aborted := by
  intro ds
  induction ds with
  | nil => intro k ws ws' out h; simp [upLoop] at h
  | cons d rest ih =>
    intro k ws ws' out h
    rw [upLoop] at h
    split at h
    · simp only [Sum.inl.injEq, Prod.mk.injEq] at h; exact h.1.symm
    · split at h
      · simp only [Sum.inl.injEq, Prod.mk.injEq] at h; exact h.1.symm
      · split at h
        · split at h
          · simp at h
          · exact ih h
        · exact ih h

lemma downLoop_inl {env : CalEnv} {floor thr : ℤ} :
    ∀ {ds : List ℤ} {k : ℕ} {ws ws' : List ℚ} {m : ℤ} {out : CalOutcome},
      downLoop env floor thr ds k ws m = .inl (out, ws') → out = .aborted := by
  intro ds
  induction ds with
  | nil => intro k ws ws' m out h; simp [downLoop] at h
  | cons d rest ih =>
    intro k ws ws' m out h
    rw [downLoop] at h
    split at h
    · simp only [Sum.inl.injEq, Prod.mk.injEq] at h; exact h.1.symm
    · split at h
      · simp only [Sum.inl.injEq, Prod.mk.injEq] at h; exact h.1.symm
      · split at h
        · split at h
          · exact ih h
          · simp at h
        · simp at h

lemma upLoop_success {env : CalEnv} {floor thr : ℤ} :
    ∀ {ds : List ℤ} {k : ℕ} {ws ws' : List ℚ} {sp r : ℤ} {k' : ℕ},
      upLoop env floor thr ds k ws = .inr (some (sp, r), k', ws') →
      ds.find? (rpmGood env.rpmUp thr) = some sp ∧ env.rpmUp sp = some r ∧ thr ≤ r := by
  intro ds
  induction ds with
  | nil => intro k ws ws' sp r k' h; simp [upLoop] at h
  | cons d rest ih =>
    intro k ws ws' sp r k' h
    rw [upLoop] at h
    split at h
    · simp at h
    · split at h
      · simp at h
      · split at h
        · rename_i r0 hr
          split at h
          · rename_i hthr
            simp only [Sum.inr.injEq, Prod.mk.injEq, Option.some.injEq] at h
            obtain ⟨⟨hd, hr0⟩, -, -⟩ := h
            subst hd; subst hr0
            refine ⟨?_, hr, hthr⟩
            rw [List.find?_cons_of_pos]
            simp [rpmGood, hr, hthr]
          · rename_i hthr
            obtain ⟨h1, h2, h3⟩ := ih h
            refine ⟨?_, h2, h3⟩
            rw [List.find?_cons_of_neg]
            · exact h1
            · simp [rpmGood, hr, hthr]
        · rename_i hr
          obtain ⟨h1, h2, h3⟩ := ih h
          refine ⟨?_, h2, h3⟩
          rw [List.find?_cons_of_neg]
          · exact h1
          · simp [rpmGood, hr]

lemma upLoop_complete {env : CalEnv} {floor thr : ℤ}
    (hc : ∀ k, env.cancel k = false) :
    ∀ {ds : List ℤ} {k : ℕ} {ws : List ℚ},
      (∀ a ∈ ds, rpmGood env.rpmUp thr a = false) →
      ∃ k' ws', upLoop env floor thr ds k ws = .inr (none, k', ws') := by
  intro ds
  induction ds with
  | nil => intro k ws _; exact ⟨k, ws, rfl⟩
  | cons d rest ih =>
    intro k ws hn
    rw [upLoop]
    simp only [hc, Bool.false_eq_true, if_false]
    split
    · rename_i r0 hr
      split
      · rename_i hthr
        have := hn d (List.mem_cons_self _ _)
        simp [rpmGood, hr, hthr] at this
      · exact ih fun a ha => hn a (List.mem_cons_of_mem _ ha)
    · exact ih fun a ha => hn a (List.mem_cons_of_mem _ ha)

lemma downLoop_inr {env : CalEnv} {floor thr : ℤ} :
    ∀ {ds : List ℤ} {k : ℕ} {ws ws' : List ℚ} {m m' : ℤ} {k' : ℕ},
      downLoop env floor thr ds k ws m = .inr (m', k', ws') →
      m' = lastOr m (ds.takeWhile fun d => rpmGood env.rpmDown thr d) := by
  intro ds
  induction ds with
  | nil =>
    intro k ws ws' m m' k' h
    simp only [downLoop, Sum.inr.injEq, Prod.mk.injEq] at h
    simp [h.1.symm]
  | cons d rest ih =>
    intro k ws ws' m m' k' h
    rw [downLoop] at h
    split at h
    · simp at h
    · split at h
      · simp at h
      · split at h
        · rename_i r0 hr
          split at h
          · rename_i hthr
            have h1 := ih h
            rw [List.takeWhile_cons_of_pos]
            · simpa using h1
            · simp [rpmGood, hr, hthr]
          · rename_i hthr
            simp only [Sum.inr.injEq, Prod.mk.injEq] at h
            rw [List.takeWhile_cons_of_neg]
            · simp [h.1.symm]
            · simp [rpmGood, hr, hthr]
        · rename_i hr
          simp only [Sum.inr.injEq, Prod.mk.injEq] at h
          rw [List.takeWhile_cons_of_neg]
          · simp [h.1.symm]
          · simp [rpmGood, hr]

lemma downLoop_complete {env : CalEnv} {floor thr : ℤ}
    (hc : ∀ k, env.cancel k = false) :
    ∀ {ds : List ℤ} {k : ℕ} {ws : List ℚ} {m : ℤ},
      ∃ m' k' ws', downLoop env floor thr ds k ws m = .inr (m', k', ws') := by
  intro ds
  induction ds with
  | nil => intro k ws m; exact ⟨m, k, ws, rfl⟩
  | cons d rest ih =>
    intro k ws m
    rw [downLoop]
    simp only [hc, Bool.false_eq_true, if_false]
    split
    · split
      · exact ih
      · exact ⟨m, k + 2, _, rfl⟩
    · exact ⟨m, k + 2, _, rfl⟩

lemma upLoop_inr_of_nocancel {env : CalEnv} {floor thr : ℤ}
    (hc : ∀ k, env.cancel k = false) :
    ∀ (ds : List ℤ) (k : ℕ) (ws : List ℚ),
      ∃ res, upLoop env floor thr ds k ws = .inr res := by
  intro ds
  induction ds with
  | nil => intro k ws; exact ⟨_, rfl⟩
  | cons d rest ih =>
    intro k ws
    rw [upLoop]
    simp only [hc, Bool.false_eq_true, if_false]
    split
    · split
      · exact ⟨_, rfl⟩
      · exact ih _ _
    · exact ih _ _

/-- C3: whenever `calibrate` returns success, the reported spin-up duty is
the first duty of the ascending sweep `max(start, floor), +step, …, ≤ end`
whose tachometer reading is present and at least `rpm_threshold`; and if no
duty of that sweep has such a reading (and cancellation is never
requested), the call returns the "no spin detected" failure carrying
`min_pct = end`. -/
theorem claim_c3_spinup (env : CalEnv) (start endP step thr floor : ℤ)
    (hstep : 1 ≤ step) :
    (∀ sp m r, (calibrate env start endP step thr floor).1 = .success sp m r →
      (rangeAsc (max start floor) endP step).find? (rpmGood env.rpmUp thr) = some sp) ∧
    ((∀ k, env.cancel k = false) →
      (rangeAsc (max start floor) endP step).find? (rpmGood env.rpmUp thr) = none →
      (calibrate env start endP step thr floor).1 = .noSpin endP) := by
  constructor
  · intro sp m r hsucc
    simp only [calibrate] at hsucc
    split at hsucc
    · rename_i out ws hup
      rw [upLoop_inl hup] at hsucc
      simp at hsucc
    · rename_i k ws hup
      simp at hsucc
    · rename_i sp' r' k ws hup
      split at hsucc
      · rename_i out2 ws2 hdown
        rw [downLoop_inl hdown] at hsucc
        simp at hsucc
      · rename_i m2 k2 ws2 hdown
        simp only [CalOutcome.success.injEq] at hsucc
        obtain ⟨h1, -, h3⟩ := hsucc
        rw [← h1]
        exact (upLoop_success hup).1
  · intro hc hnone
    rw [List.find?_eq_none] at hnone
    obtain ⟨k', ws', hup⟩ :=
      @upLoop_complete env floor thr hc (rangeAsc (max start floor) endP step) 0 []
        fun a ha => by simpa using hnone a ha
    simp [calibrate, hup]

def calWitEnv : CalEnv :=
  { rpmUp := fun d => if 25 ≤ d then some 3000 else none
    rpmDown := fun d => if 25 ≤ d then some 3000 else some 40
    cancel := fun _ => false }

/-- C3 witness: the spec's end-to-end scenario (sweep 0–100 step 5,
threshold 100, fan spinning from 25% on) reports spin-up duty 25, the first
good duty of the sweep. -/
theorem claim_c3_witness :
    (rangeAsc (max 0 20) 100 5).find? (rpmGood calWitEnv.rpmUp 100) = some 25 :=
  (claim_c3_spinup calWitEnv 0 100 5 100 20 (by norm_num)).1 25 25 3000 (by decide)

/-- C4 counterexample: with `start = 105`, `end = 120` (a configuration
with `end > 100`) and a fan whose tachometer responds from duty 105, the
call succeeds with `min_pct = 105`, yet the final duty commanded before
returning is the clamped `100`, not `min_pct`. -/
def c4CexEnv : CalEnv :=
  { rpmUp := fun d => if d = 105 then some 1000 else none
    rpmDown := fun d => if d = 105 then some 1000 else none
    cancel := fun _ => false }

theorem claim_c4_counterexample :
    (calibrate c4CexEnv 105 120 5 100 20).1 = .success 105 105 1000 ∧
    (calibrate c4CexEnv 105 120 5 100 20).2.getLast? = some 100 ∧
    (100 : ℚ) ≠ 105 := by
  refine ⟨by decide, by decide, by norm_num⟩

/-- C4 amended: whenever `calibrate` returns success, the reported minimum
stable duty lies between `max(start, floor)` and the spin-up duty, it is
the duty at which the descending sweep from the spin-up duty stopped (the
last duty of the longest all-good prefix, or the spin-up duty itself), and
the final duty commanded before returning is `min_pct` clamped to
`[0, 100]` (equal to `min_pct` for every configuration with
`0 ≤ max(start, floor)` and `end ≤ 100`). -/
theorem claim_c4_minstable (env : CalEnv) (start endP step thr floor sp m r : ℤ)
    (hstep : 1 ≤ step)
    (hsucc : (calibrate env start endP step thr floor).1 = .success sp m r) :
    max start floor ≤ m ∧ m ≤ sp ∧
    m = lastOr sp ((rangeDesc sp (max start floor) step).takeWhile
          fun d => rpmGood env.rpmDown thr d) ∧
    (calibrate env start endP step thr floor).2.getLast? =
      some (qclamp (m : ℚ) 0 100) := by
  simp only [calibrate] at hsucc ⊢
  split at hsucc
  · rename_i out ws hup
    rw [upLoop_inl hup] at hsucc
    simp at hsucc
  · rename_i k ws hup
    simp at hsucc
  · rename_i sp' r' k ws hup
    split at hsucc
    · rename_i out2 ws2 hdown
      rw [downLoop_inl hdown] at hsucc
      simp at hsucc
    · rename_i m2 k2 ws2 hdown
      simp only [CalOutcome.success.injEq] at hsucc
      obtain ⟨h1, h2, h3⟩ := hsucc
      rw [← h1, ← h2]
      have hspmem : sp' ∈ rangeAsc (max start floor) endP step :=
        List.mem_of_find?_eq_some (upLoop_success hup).1
      have hsp := rangeAsc_mem_bounds hstep hspmem
      have hmlast := downLoop_inr hdown
      have hmb : max start floor ≤ m2 ∧ m2 ≤ sp' := by
        rcases lastOr_mem ((rangeDesc sp' (max start floor) step).takeWhile
            fun d => rpmGood env.rpmDown thr d) sp' with he | hmem
        · rw [hmlast, he]
          exact ⟨hsp.1, le_refl _⟩
        · rw [hmlast]
          have hmm : lastOr sp' ((rangeDesc sp' (max start floor) step).takeWhile
              fun d => rpmGood env.rpmDown thr d) ∈
              rangeDesc sp' (max start floor) step :=
            (List.takeWhile_sublist _).mem hmem
          exact ⟨(rangeDesc_mem_bounds hstep hmm).1,
                 (rangeDesc_mem_bounds hstep hmm).2⟩
      refine ⟨hmb.1, hmb.2, hmlast, ?_⟩
      have hfm : max floor m2 = m2 :=
        max_eq_right (le_trans (le_max_right start floor) hmb.1)
      simp only [hup, hdown]
      simp [safeWriteVal, hfm]

/-- C4 witness: the spec's end-to-end scenario succeeds with
`min_pct = 25`, which is between the floor-raised start 20 and the spin-up
duty 25, is where the down-sweep stopped, and is the final duty written. -/
theorem claim_c4_witness :
    max 0 20 ≤ (25 : ℤ) ∧ (25 : ℤ) ≤ 25 ∧
    (25 : ℤ) = lastOr 25 ((rangeDesc 25 (max 0 20) 5).takeWhile
        fun d => rpmGood calWitEnv.rpmDown 100 d) ∧
    (calibrate calWitEnv 0 100 5 100 20).2.getLast? =
      some (qclamp ((25 : ℤ) : ℚ) 0 100) :=
  claim_c4_minstable calWitEnv 0 100 5 100 20 25 25 3000 (by norm_num) (by decide)

lemma upLoop_congr (e1 e2 : CalEnv) (floor thr : ℤ)
    (hc : e1.cancel = e2.cancel)
    (hh : ∀ x, (match e1.rpmUp x with
                | some r => if thr ≤ r then some r else none
                | none => none) =
               (match e2.rpmUp x with
                | some r => if thr ≤ r then some r else none
                | none => none)) :
    ∀ (ds : List ℤ) (k : ℕ) (ws : List ℚ),
      upLoop e1 floor thr ds k ws = upLoop e2 floor thr ds k ws := by
  intro ds
  induction ds with
  | nil => intro k ws; rfl
  | cons d rest ih =>
    intro k ws
    rw [upLoop, upLoop, hc]
    by_cases h1 : e2.cancel k
    · rw [if_pos h1, if_pos h1]
    · rw [if_neg h1, if_neg h1]
      by_cases h2 : e2.cancel (k + 1)
      · rw [if_pos h2, if_pos h2]
      · rw [if_neg h2, if_neg h2]
        have hx := hh d
        cases hr1 : e1.rpmUp d with
        | some r1 =>
          cases hr2 : e2.rpmUp d with
          | some r2 =>
            simp only [hr1, hr2] at hx
            by_cases t1 : thr ≤ r1
            · by_cases t2 : thr ≤ r2
              · rw [if_pos t1, if_pos t2] at hx
                have hr12 : r1 = r2 := Option.some.inj hx
                subst hr12
                simp only [t1, if_true]
              · rw [if_pos t1, if_neg t2] at hx; cases hx
            · by_cases t2 : thr ≤ r2
              · rw [if_neg t1, if_pos t2] at hx; cases hx
              · simp only [t1, t2, if_false]
                exact ih _ _
          | none =>
            simp only [hr1, hr2] at hx
            by_cases t1 : thr ≤ r1
            · simp [t1] at hx
            · simp only [t1, if_false]
              exact ih _ _
        | none =>
          cases hr2 : e2.rpmUp d with
          | some r2 =>
            simp only [hr1, hr2] at hx
            by_cases t2 : thr ≤ r2
            · simp [t2] at hx
            · simp only [t2, if_false]
              exact ih _ _
          | none => exact ih _ _

lemma downLoop_congr (e1 e2 : CalEnv) (floor thr : ℤ)
    (hc : e1.cancel = e2.cancel)
    (hh : ∀ x, rpmGood e1.rpmDown thr x = rpmGood e2.rpmDown thr x) :
    ∀ (ds : List ℤ) (k : ℕ) (ws : List ℚ) (m : ℤ),
      downLoop e1 floor thr ds k ws m = downLoop e2 floor thr ds k ws m := by
  intro ds
  induction ds with
  | nil => intro k ws m; rfl
  | cons d rest ih =>
    intro k ws m
    rw [downLoop, downLoop, hc]
    by_cases h1 : e2.cancel k
    · rw [if_pos h1, if_pos h1]
    · rw [if_neg h1, if_neg h1]
      by_cases h2 : e2.cancel (k + 1)
      · rw [if_pos h2, if_pos h2]
      · rw [if_neg h2, if_neg h2]
        have hx := hh d
        cases hr1 : e1.rpmDown d with
        | some r1 =>
          cases hr2 : e2.rpmDown d with
          | some r2 =>
            simp only [rpmGood, hr1, hr2] at hx
            by_cases t1 : thr ≤ r1
            · by_cases t2 : thr ≤ r2
              · simp only [t1, t2, if_true]
                exact ih _ _ _
              · simp [t1, t2] at hx
            · by_cases t2 : thr ≤ r2
              · simp [t1, t2] at hx
              · simp [t1, t2]
          | none =>
            simp only [rpmGood, hr1, hr2] at hx
            by_cases t1 : thr ≤ r1
            · simp [t1] at hx
            · simp [t1]
        | none =>
          cases hr2 : e2.rpmDown d with
          | some r2 =>
            simp only [rpmGood, hr1, hr2] at hx
            by_cases t2 : thr ≤ r2
            · simp [t2] at hx
            · simp [t2]
          | none => rfl

/-- C6: a missing tachometer reading at one duty is treated exactly like a
present below-threshold reading at that duty, in the spin-up phase and in
the min-stable phase alike: the whole call (outcome and every write)
is unchanged, so the absent reading affects only that single step's
spin-up/continue decision; and a run that is never cancelled cannot abort,
whatever readings are missing (the embedding has no read-failure error
path, mirroring `_read_rpm`, which converts every exception to `None`). -/
theorem claim_c6_missing_reading (env : CalEnv)
    (start endP step thr floor d v : ℤ) (hv : v < thr) :
    (calibrate { env with rpmUp := fun x => if x = d then none else env.rpmUp x }
        start endP step thr floor =
     calibrate { env with rpmUp := fun x => if x = d then some v else env.rpmUp x }
        start endP step thr floor) ∧
    (calibrate { env with rpmDown := fun x => if x = d then none else env.rpmDown x }
        start endP step thr floor =
     calibrate { env with rpmDown := fun x => if x = d then some v else env.rpmDown x }
        start endP step thr floor) ∧
    ((∀ k, env.cancel k = false) →
      (calibrate env start endP step thr floor).1 ≠ .aborted) := by
  refine ⟨?_, ?_, ?_⟩
  · set e1 : CalEnv :=
      { env with rpmUp := fun x => if x = d then none else env.rpmUp x }
    set e2 : CalEnv :=
      { env with rpmUp := fun x => if x = d then some v else env.rpmUp x }
    have hh : ∀ x, (match e1.rpmUp x with
        | some r => if thr ≤ r then some r else none
        | none => none) =
        (match e2.rpmUp x with
        | some r => if thr ≤ r then some r else none
        | none => none) := by
      intro x
      by_cases hx : x = d
      · simp [e1, e2, hx, not_le.2 hv]
      · simp [e1, e2, hx]
    have h1 : ∀ k ws, upLoop e1 floor thr (rangeAsc (max start floor) endP step) k ws =
        upLoop e2 floor thr (rangeAsc (max start floor) endP step) k ws :=
      fun k ws => upLoop_congr e1 e2 floor thr rfl hh _ k ws
    have h2 : downLoop e1 floor thr = downLoop e2 floor thr :=
      funext fun a => funext fun b => funext fun c => funext fun m =>
        downLoop_congr e1 e2 floor thr rfl (fun x => rfl) a b c m
    simp only [calibrate]
    rw [h1, h2]
  · set e1 : CalEnv :=
      { env with rpmDown := fun x => if x = d then none else env.rpmDown x }
    set e2 : CalEnv :=
      { env with rpmDown := fun x => if x = d then some v else env.rpmDown x }
    have hh : ∀ x, rpmGood e1.rpmDown thr x = rpmGood e2.rpmDown thr x := by
      intro x
      by_cases hx : x = d
      · simp [rpmGood, e1, e2, hx, not_le.2 hv]
      · simp [rpmGood, e1, e2, hx]
    have h1 : ∀ ds k ws, upLoop e1 floor thr ds k ws = upLoop e2 floor thr ds k ws :=
      upLoop_congr e1 e2 floor thr rfl fun x => rfl
    have h2 : downLoop e1 floor thr = downLoop e2 floor thr :=
      funext fun a => funext fun b => funext fun c => funext fun m =>
        downLoop_congr e1 e2 floor thr rfl hh a b c m
    simp only [calibrate]
    rw [h1, h2]
  · intro hc hab
    simp only [calibrate] at hab
    obtain ⟨⟨o, k, ws⟩, hup⟩ :=
      @upLoop_inr_of_nocancel env floor thr hc (rangeAsc (max start floor) endP step) 0 []
    cases o with
    | none => simp [hup] at hab
    | some p =>
      obtain ⟨sp, r⟩ := p
      obtain ⟨m', k', ws', hdown⟩ :=
        @downLoop_complete env floor thr hc (rangeDesc sp (max start floor) step) k ws sp
      simp [hup, hdown] at hab

/-- C6 witness: on the spec's scenario environment, deleting the reading at
duty 22 equals reporting 50 RPM (below threshold 100) there, for both
phases, and the non-cancelled run does not abort. -/
theorem claim_c6_witness :
    (calibrate { calWitEnv with
        rpmUp := fun x => if x = 22 then none else calWitEnv.rpmUp x } 0 100 5 100 20 =
     calibrate { calWitEnv with
        rpmUp := fun x => if x = 22 then some 50 else calWitEnv.rpmUp x } 0 100 5 100 20) ∧
    (calibrate calWitEnv 0 100 5 100 20).1 ≠ .aborted :=
  ⟨(claim_c6_missing_reading calWitEnv 0 100 5 100 20 22 50 (by norm_num)).1,
   (claim_c6_missing_reading calWitEnv 0 100 5 100 20 22 50 (by norm_num)).2.2
     fun k => rfl⟩

/-! ### SysfsPwmOutput write path (`main.py` lines 280-325)

The filesystem behaviour of one `write` call: `enableExists` models
`enable_path and os.path.exists(enable_path)`, and the two `Option ℤ`
fields give the `errno` with which the enable-file and the duty-file write
would fail (`none` = success).  The second component of the result is the
raw value written to the duty file, `none` when no hardware duty write
happened.  Only `OSError` failures are modelled, as in the source's
`except OSError` handlers. -/
structure WriteEnv where
  enableExists : Bool
  enableErr : Option ℤ
  pwmErr : Option ℤ

/-- The mutable state of a `SysfsPwmOutput` (plus `OutputController`'s
`last_duty`). -/
structure PwmOut where
  writable : Bool
  minPct : ℚ
  maxPct : ℚ
  lastDuty : ℚ

/-- A `SysfsPwmOutput` as built with the constructor defaults
(`min_pct=0.0, max_pct=100.0, writable=True`; `last_duty = 0.0`). -/
def initPwmOut : PwmOut :=
  { writable := true, minPct := 0, maxPct := 100, lastDuty := 0 }

def eOPNOTSUPP : ℤ := 95

def eROFS : ℤ := 30

def ePERM : ℤ := 1

/-- `SysfsPwmOutput._write_impl`: skip when not writable; clamp to the
output's own bounds; try to force manual enable mode (re-raising failures
whose errno is not EROFS/EPERM); write the duty file; on OSError with
errno EOPNOTSUPP/95 mark the output read-only, otherwise only warn. -/
def writeImpl (env : WriteEnv) (o : PwmOut) (duty : ℚ) : PwmOut × Option ℤ :=
  if ¬ o.writable then (o, none)
  else
    let d := qclamp duty o.minPct o.maxPct
    let pwmVal := pyRound (d * 255 / 100)
    let raised : Option ℤ :=
      if env.enableExists then
        match env.enableErr with
        | some e => if e = eROFS ∨ e = ePERM then none else some e
        | none => none
      else none
    match raised with
    | some e =>
      if e = eOPNOTSUPP ∨ e = 95 then ({ o with writable := false }, none)
      else (o, none)
    | none =>
      match env.pwmErr with
      | none => (o, some pwmVal)
      | some e =>
        if e = eOPNOTSUPP ∨ e = 95 then ({ o with writable := false }, none)
        else (o, none)

/-- `OutputController.write`: clamp to `[0, 100]`, record `last_duty`,
then call `_write_impl`. -/
def outWrite (env : WriteEnv) (o : PwmOut) (duty : ℚ) : PwmOut × Option ℤ :=
  let d := qclamp duty 0 100
  writeImpl env { o with lastDuty := d } d

/-- C5 counterexample: when the enable-forcing write fails with
EOPNOTSUPP (errno 95) while the duty-file write itself would succeed, the
output is downgraded to read-only even though the duty-file write never
failed, refuting "writable becomes false only if the duty-file write fails
with EOPNOTSUPP". -/
def c5CexEnv : WriteEnv :=
  { enableExists := true, enableErr := some 95, pwmErr := none }

theorem claim_c5_counterexample :
    initPwmOut.writable = true ∧
    (outWrite c5CexEnv initPwmOut 50).1.writable = false ∧
    c5CexEnv.pwmErr = none := by
  refine ⟨rfl, ?_, rfl⟩
  decide

/-- C5 amended: `writable` starts `true` under the constructor defaults; a
write call downgrades it to `false` iff the failure with errno
EOPNOTSUPP/95 comes either from the propagated enable-forcing write (whose
EROFS/EPERM failures are swallowed) or from the duty-file write; a
duty-file write failing with EPERM or EROFS (the enable write not having
propagated an error) leaves `writable` `true`; and once `writable` is
`false` every later call returns with no hardware write, only recording
`last_duty`. -/
theorem claim_c5_writable (env : WriteEnv) (o : PwmOut) (duty : ℚ) :
    initPwmOut.writable = true ∧
    (o.writable = true →
      ((outWrite env o duty).1.writable = false ↔
        (env.enableExists = true ∧ env.enableErr = some 95) ∨
        ((env.enableExists = false ∨ env.enableErr = none ∨
          env.enableErr = some eROFS ∨ env.enableErr = some ePERM) ∧
         env.pwmErr = some 95))) ∧
    (o.writable = true →
      (env.enableExists = false ∨ env.enableErr = none ∨
       env.enableErr = some eROFS ∨ env.enableErr = some ePERM) →
      (env.pwmErr = some ePERM ∨ env.pwmErr = some eROFS) →
      (outWrite env o duty).1.writable = true ∧ (outWrite env o duty).2 = none) ∧
    (o.writable = false →
      outWrite env o duty = ({ o with lastDuty := qclamp duty 0 100 }, none)) := by
  refine ⟨rfl, ?_, ?_, ?_⟩
  · intro hw
    obtain ⟨ee, eerr, perr⟩ := env
    cases ee <;> cases eerr <;> cases perr <;>
      simp only [outWrite, writeImpl, hw, Bool.not_eq_true] <;>
      simp [eOPNOTSUPP, eROFS, ePERM] <;>
      split_ifs <;> simp_all <;> (try split_ifs <;> simp_all) <;> try omega
  · intro hw hen hperm
    obtain ⟨ee, eerr, perr⟩ := env
    cases ee <;> cases eerr <;> cases perr <;>
      simp only [outWrite, writeImpl, hw, Bool.not_eq_true] <;>
      simp_all [eOPNOTSUPP, eROFS, ePERM] <;>
      split_ifs <;> simp_all <;> (try split_ifs <;> simp_all) <;> try omega
  · intro hw
    simp [outWrite, writeImpl, hw]

/-- C5 witness: a fresh default output downgraded by a duty-file
EOPNOTSUPP failure, a permission failure leaving it writable, and a
skipped write on a read-only output. -/
theorem claim_c5_witness :
    ((outWrite ⟨false, none, some 95⟩ initPwmOut 50).1.writable = false) ∧
    ((outWrite ⟨false, none, some 1⟩ initPwmOut 50).1.writable = true) ∧
    (outWrite ⟨false, none, none⟩
        { writable := false, minPct := 0, maxPct := 100, lastDuty := 7 } 50 =
      ({ writable := false, minPct := 0, maxPct := 100, lastDuty := qclamp 50 0 100 },
        none)) :=
  ⟨((claim_c5_writable ⟨false, none, some 95⟩ initPwmOut 50).2.1 rfl).2
      (Or.inr ⟨Or.inl rfl, rfl⟩),
   ((claim_c5_writable ⟨false, none, some 1⟩ initPwmOut 50).2.2.1 rfl
      (Or.inl rfl) (Or.inl rfl)).1,
   (claim_c5_writable ⟨false, none, none⟩
      { writable := false, minPct := 0, maxPct := 100, lastDuty := 7 } 50).2.2.2 rfl⟩

/-! ### Coupling inference (`infer_coupling_via_perturbation`,
`main.py` lines 648-855)

Per-output hardware environment.  `probeWritable` is the result of
`probe_pwm_writable`, `prevEn`/`prevPwmRaw` the snapshotted enable and raw
duty file contents (duty files hold decimal integers), `rpmBefore`/
`rpmAfter` the two tachometer probes around the first boost, and
`tBase`/`tHigh` the temperature read at each path during the baseline and
the boosted measurement phase (`none` = unreadable).  Writes succeed;
cancellation is modelled as never firing (cancel paths only cut the run
short and issue no write of their own).  The hold waits are pure delays. -/
structure OutEnv where
  probeWritable : Bool
  prevEn : Option String
  prevPwmRaw : Option ℤ
  rpmBefore : Option ℤ
  rpmAfter : Option ℤ
  tBase : String → Option ℚ
  tHigh : String → Option ℚ

/-- One temperature point handed to the engine (`temps` list entries). -/
structure TempDef where
  path : String
  label : String
  deriving DecidableEq

/-- A PWM write as seen by the hardware: either a percent-based write
through `_write_pwm_pct_file` (logged as the clamped duty percent
commanded) or a raw write replaying snapshotted file contents. -/
inductive PwmEvent where
  | pctWrite : ℚ → PwmEvent
  | rawWrite : ℤ → PwmEvent
  deriving DecidableEq

/-- Duty percent commanded by an event (raw values are out of 255). -/
def eventDuty : PwmEvent → ℚ
  | .pctWrite p => p
  | .rawWrite v => (v : ℚ) * 100 / 255

/-- An emitted coupling record `{sensor_label, sensor_path, score}`. -/
structure CouplingRec where
  sensorLabel : String
  sensorPath : String
  score : ℚ
  deriving DecidableEq

/-- `_pct_from_raw`: parse the raw snapshot, reject negatives, convert to
a percent clamped to `[0, 100]`. -/
def pctFromRaw : Option ℤ → Option ℚ
  | none => none
  | some x => if x < 0 then none else some (qclamp ((x : ℚ) * 100 / 255) 0 100)

/-- Duty-file writes performed by a successful `probe_pwm_writable`: the
no-op write of the previous raw value and the restore write of the same
value (none when the duty file was unreadable). -/
def probeEvents (e : OutEnv) : List PwmEvent :=
  if e.probeWritable then
    match e.prevPwmRaw with
    | some v => [.rawWrite v, .rawWrite v]
    | none => []
  else []

/-- The scoring loop: for each temperature point present in both vectors,
track the largest absolute delta, strictly improving (`dtemp > best_val`,
starting from `best_val = 0.0`, `best_path = None`). -/
def scoreLoop (tBase tHigh : String → Option ℚ) :
    List TempDef → Option String → ℚ → Option String × ℚ
  | [], best, bv => (best, bv)
  | t :: rest, best, bv =>
    match tHigh t.path, tBase t.path with
    | some h, some b =>
      if bv < |h - b| then scoreLoop tBase tHigh rest (some t.path) |h - b|
      else scoreLoop tBase tHigh rest best bv
    | _, _ => scoreLoop tBase tHigh rest best bv

/-- Emission of one output's coupling record from the scoring loop: if a
best path was found, look up its first entry in `temps` and emit
`{sensor_label, sensor_path, score}`. -/
def scoreOutput (temps : List TempDef) (tBase tHigh : String → Option ℚ) :
    Option CouplingRec :=
  match scoreLoop tBase tHigh temps none 0 with
  | (none, _) => none
  | (some p, v) =>
    match temps.find? fun t => t.path = p with
    | some st => some ⟨st.label, st.path, v⟩
    | none => none

/-- Processing of one PWM output by `infer_coupling_via_perturbation`:
skip non-writable outputs; otherwise probe (two raw no-op writes), boost to
`max(floor, hold)` (clamped by `_write_pwm_pct_file` to
`[floor_pct, 100]`), fast-reject when both tachometer probes are present
and differ by less than 50 RPM, otherwise run the baseline write at
`max(floor, previous duty or 35)`, boost again, and score; finally restore
the raw snapshot.  Returns the write log and the optional record. -/
def processOutput (floor hold : ℤ) (temps : List TempDef) (e : OutEnv) :
    List PwmEvent × Option CouplingRec :=
  if e.probeWritable then
    let prevPct := pctFromRaw e.prevPwmRaw
    let startPct : ℚ := max (floor : ℚ) (prevPct.getD 35)
    let boostEv := PwmEvent.pctWrite (qclamp (max (floor : ℚ) (hold : ℚ)) floor 100)
    let restoreEvs : List PwmEvent :=
      match e.prevPwmRaw with
      | some v => [.rawWrite v]
      | none => []
    let fastReject : Bool :=
      match e.rpmBefore, e.rpmAfter with
      | some rb, some ra => decide (|ra - rb| < 50)
      | _, _ => false
    if fastReject then
      (probeEvents e ++ [boostEv] ++ restoreEvs, none)
    else
      let baseEv := PwmEvent.pctWrite (qclamp startPct floor 100)
      (probeEvents e ++ [boostEv, baseEv, boostEv] ++ restoreEvs,
       scoreOutput temps e.tBase e.tHigh)
  else ([], none)

/-- `infer_coupling_via_perturbation` over a list of labelled outputs:
process each in order, concatenating write logs and collecting the
emitted records. -/
def inferCoupling (floor hold : ℤ) (temps : List TempDef) :
    List (String × OutEnv) → List PwmEvent × List (String × CouplingRec)
  | [] => ([], [])
  | (lbl, e) :: rest =>
    let pr := processOutput floor hold temps e
    let tail := inferCoupling floor hold temps rest
    (pr.1 ++ tail.1,
     match pr.2 with
     | some r => (lbl, r) :: tail.2
     | none => tail.2)

lemma scoreLoop_spec (tB tH : String → Option ℚ) :
    ∀ (ts : List TempDef) (best : Option String) (bv : ℚ),
      bv ≤ (scoreLoop tB tH ts best bv).2 ∧
      (∀ t ∈ ts, ∀ b h, tB t.path = some b → tH t.path = some h →
        |h - b| ≤ (scoreLoop tB tH ts best bv).2) ∧
      (((scoreLoop tB tH ts best bv).1 = best ∧
        (scoreLoop tB tH ts best bv).2 = bv) ∨
       (∃ t ∈ ts, (scoreLoop tB tH ts best bv).1 = some t.path ∧
         (∃ b h, tB t.path = some b ∧ tH t.path = some h ∧
           |h - b| = (scoreLoop tB tH ts best bv).2) ∧
         bv < (scoreLoop tB tH ts best bv).2)) := by
  intro ts
  induction ts with
  | nil =>
    intro best bv
    exact ⟨le_refl _, fun t ht => absurd ht (List.not_mem_nil t), Or.inl ⟨rfl, rfl⟩⟩
  | cons t rest ih =>
    intro best bv
    rw [scoreLoop]
    cases hh : tH t.path with
    | none =>
      simp only [hh]
      have hih := ih best bv
      refine ⟨hih.1, ?_, ?_⟩
      · intro t' ht' b h hb' hh'
        rcases List.mem_cons.1 ht' with rfl | ht''
        · rw [hh] at hh'; cases hh'
        · exact hih.2.1 t' ht'' b h hb' hh'
      · rcases hih.2.2 with he | ⟨t', ht', hrest⟩
        · exact Or.inl he
        · exact Or.inr ⟨t', List.mem_cons_of_mem _ ht', hrest⟩
    | some h0 =>
      cases hb : tB t.path with
      | none =>
        simp only [hh, hb]
        have hih := ih best bv
        refine ⟨hih.1, ?_, ?_⟩
        · intro t' ht' b h hb' hh'
          rcases List.mem_cons.1 ht' with rfl | ht''
          · rw [hb] at hb'; cases hb'
          · exact hih.2.1 t' ht'' b h hb' hh'
        · rcases hih.2.2 with he | ⟨t', ht', hrest⟩
          · exact Or.inl he
          · exact Or.inr ⟨t', List.mem_cons_of_mem _ ht', hrest⟩
      | some b0 =>
        simp only [hh, hb]
        by_cases hlt : bv < |h0 - b0|
        · rw [if_pos hlt]
          have hih := ih (some t.path) |h0 - b0|
          refine ⟨le_trans (le_of_lt hlt) hih.1, ?_, ?_⟩
          · intro t' ht' b h hb' hh'
            rcases List.mem_cons.1 ht' with rfl | ht''
            · have hb0 : b0 = b := Option.some.inj (hb.symm.trans hb')
              have hh0 : h0 = h := Option.some.inj (hh.symm.trans hh')
              subst hb0; subst hh0
              exact hih.1
            · exact hih.2.1 t' ht'' b h hb' hh'
          · rcases hih.2.2 with ⟨he1, he2⟩ | ⟨t', ht', hp, hd, hbv⟩
            · refine Or.inr ⟨t, List.mem_cons_self _ _, he1, ⟨b0, h0, hb, hh, ?_⟩, ?_⟩
              · rw [he2]
              · rw [he2]; exact hlt
            · exact Or.inr ⟨t', List.mem_cons_of_mem _ ht', hp, hd,
                lt_trans hlt hbv⟩
        · rw [if_neg hlt]
          have hih := ih best bv
          refine ⟨hih.1, ?_, ?_⟩
          · intro t' ht' b h hb' hh'
            rcases List.mem_cons.1 ht' with rfl | ht''
            · have hb0 : b0 = b := Option.some.inj (hb.symm.trans hb')
              have hh0 : h0 = h := Option.some.inj (hh.symm.trans hh')
              subst hb0; subst hh0
              exact le_trans (not_lt.1 hlt) hih.1
            · exact hih.2.1 t' ht'' b h hb' hh'
          · rcases hih.2.2 with he | ⟨t', ht', hrest⟩
            · exact Or.inl he
            · exact Or.inr ⟨t', List.mem_cons_of_mem _ ht', hrest⟩

/-- C2: at the scoring step with baseline vector `tB` and boosted vector
`tH`, a coupling record is emitted iff some temperature point present in
both vectors has a nonzero absolute delta; the emitted record's sensor
path is a point achieving the maximum absolute delta, and its score is
that maximum. -/
theorem claim_c2_scoring (temps : List TempDef) (tB tH : String → Option ℚ) :
    ((scoreOutput temps tB tH).isSome = true ↔
      ∃ t ∈ temps, ∃ b h, tB t.path = some b ∧ tH t.path = some h ∧
        0 < |h - b|) ∧
    (∀ res, scoreOutput temps tB tH = some res →
      ∃ t ∈ temps, res.sensorPath = t.path ∧
        (∃ b h, tB t.path = some b ∧ tH t.path = some h ∧
          |h - b| = res.score) ∧
        0 < res.score ∧
        (∀ t' ∈ temps, ∀ b h, tB t'.path = some b → tH t'.path = some h →
          |h - b| ≤ res.score)) := by
  have hs := scoreLoop_spec tB tH temps none 0
  rcases hres : scoreLoop tB tH temps none 0 with ⟨o, v⟩
  rw [hres] at hs
  dsimp only at hs
  rw [scoreOutput, hres]
  cases o with
  | none =>
    dsimp only
    rcases hs.2.2 with ⟨-, hv⟩ | ⟨t, -, hp, -, -⟩
    · subst hv
      constructor
      · constructor
        · intro habs; simp at habs
        · rintro ⟨t, ht, b, h, hb, hh, hpos⟩
          have := hs.2.1 t ht b h hb hh
          simp at this
          rw [this] at hpos
          simp at hpos
      · intro res hr; simp at hr
    · cases hp
  | some p =>
    dsimp only
    rcases hs.2.2 with ⟨hno, -⟩ | ⟨t, ht, hp, ⟨b, h, hb, hh2, hd⟩, hbv⟩
    · cases hno
    · have hpt : p = t.path := Option.some.inj hp
      have hfind : (temps.find? fun t' => t'.path = p).isSome = true := by
        rw [List.find?_isSome]
        exact ⟨t, ht, by simp [hpt]⟩
      obtain ⟨st, hst⟩ := Option.isSome_iff_exists.1 hfind
      have hstp : st.path = p := by
        have := List.find?_some hst
        simpa using this
      rw [hst]
      constructor
      · constructor
        · intro _
          exact ⟨t, ht, b, h, hb, hh2, by rw [hd]; exact hbv⟩
        · intro _; rfl
      · intro res hr
        have hres' : res = ⟨st.label, st.path, v⟩ := (Option.some.inj hr).symm
        subst hres'
        refine ⟨t, ht, ?_, ⟨b, h, hb, hh2, hd⟩, hbv, ?_⟩
        · simpa using hstp.trans hpt
        · intro t' ht' b' h' hb' hh'
          exact hs.2.1 t' ht' b' h' hb' hh'

def c2Temps : List TempDef := [⟨"t1", "CPU"⟩, ⟨"t2", "GPU"⟩]

def c2B : String → Option ℚ := fun p => if p = "t1" then some 60 else some 70

def c2H : String → Option ℚ := fun p => if p = "t1" then some 65 else some 70

/-- C2 witness: with CPU at 60→65 °C under fan A's boost and GPU flat at
70 °C, the emitted record links to "t1" with score 5, the maximal delta. -/
theorem claim_c2_witness :
    ∃ t ∈ c2Temps, (CouplingRec.mk "CPU" "t1" 5).sensorPath = t.path ∧
      (∃ b h, c2B t.path = some b ∧ c2H t.path = some h ∧
        |h - b| = (CouplingRec.mk "CPU" "t1" 5).score) ∧
      0 < (CouplingRec.mk "CPU" "t1" 5).score ∧
      (∀ t' ∈ c2Temps, ∀ b h, c2B t'.path = some b → c2H t'.path = some h →
        |h - b| ≤ (CouplingRec.mk "CPU" "t1" 5).score) :=
  (claim_c2_scoring c2Temps c2B c2H).2 ⟨"CPU", "t1", 5⟩
    (by
      have hB1 : c2B "t1" = some 60 := by norm_num [c2B]
      have hH1 : c2H "t1" = some 65 := by norm_num [c2H]
      have hB2 : c2B "t2" = some 70 := by simp [c2B]
      have hH2 : c2H "t2" = some 70 := by simp [c2H]
      have h1 : scoreLoop c2B c2H c2Temps none 0 = (some "t1", 5) := by
        rw [c2Temps, scoreLoop]
        simp only [hB1, hH1]
        norm_num
        rw [scoreLoop]
        simp only [hB2, hH2]
        norm_num [scoreLoop]
      rw [scoreOutput, h1]
      norm_num [c2Temps])

/-! ### C1: the safety floor over the write logs -/

lemma qclamp_lo_le (v lo hi : ℚ) : lo ≤ qclamp v lo hi := le_max_left _ _

lemma safeWriteVal_ge {floorC : ℤ} (hfl : floorC ≤ 100) (d : ℤ) :
    (floorC : ℚ) ≤ safeWriteVal floorC d := by
  rw [safeWriteVal, qclamp]
  have h1 : (floorC : ℚ) ≤ ((max floorC d : ℤ) : ℚ) :=
    Int.cast_le.2 (le_max_left _ _)
  have h2 : (floorC : ℚ) ≤ 100 := by exact_mod_cast hfl
  exact le_trans (le_min h2 h1) (le_max_right _ _)

/-- Write log of either result of the spin-up loop. -/
def upWs : (CalOutcome × List ℚ) ⊕ (Option (ℤ × ℤ) × ℕ × List ℚ) → List ℚ
  | .inl (_, ws) => ws
  | .inr (_, _, ws) => ws

/-- Write log of either result of the min-stable loop. -/
def downWs : (CalOutcome × List ℚ) ⊕ (ℤ × ℕ × List ℚ) → List ℚ
  | .inl (_, ws) => ws
  | .inr (_, _, ws) => ws

lemma upLoop_writes (env : CalEnv) (floorC thr : ℤ) (P : ℚ → Prop)
    (hP : ∀ d : ℤ, P (safeWriteVal floorC d)) :
    ∀ (ds : List ℤ) (k : ℕ) (ws : List ℚ), (∀ w ∈ ws, P w) →
      ∀ w ∈ upWs (upLoop env floorC thr ds k ws), P w := by
  intro ds
  induction ds with
  | nil => intro k ws hws; exact hws
  | cons d rest ih =>
    intro k ws hws
    have hws2 : ∀ w ∈ ws ++ [safeWriteVal floorC d], P w := by
      intro w hw
      rcases List.mem_append.1 hw with h | h
      · exact hws w h
      · rw [List.mem_singleton.1 h]; exact hP d
    rw [upLoop]
    split
    · exact hws
    · split
      · exact hws2
      · split
        · split
          · exact hws2
          · exact ih _ _ hws2
        · exact ih _ _ hws2

lemma downLoop_writes (env : CalEnv) (floorC thr : ℤ) (P : ℚ → Prop)
    (hP : ∀ d : ℤ, P (safeWriteVal floorC d)) :
    ∀ (ds : List ℤ) (k : ℕ) (ws : List ℚ) (m : ℤ), (∀ w ∈ ws, P w) →
      ∀ w ∈ downWs (downLoop env floorC thr ds k ws m), P w := by
  intro ds
  induction ds with
  | nil => intro k ws m hws; exact hws
  | cons d rest ih =>
    intro k ws m hws
    have hws2 : ∀ w ∈ ws ++ [safeWriteVal floorC d], P w := by
      intro w hw
      rcases List.mem_append.1 hw with h | h
      · exact hws w h
      · rw [List.mem_singleton.1 h]; exact hP d
    rw [downLoop]
    split
    · exact hws
    · split
      · exact hws2
      · split
        · split
          · exact ih _ _ _ hws2
          · exact hws2
        · exact hws2

lemma calibrate_writes (env : CalEnv) (start endP step thr floorC : ℤ)
    (P : ℚ → Prop) (hP : ∀ d : ℤ, P (safeWriteVal floorC d)) :
    ∀ w ∈ (calibrate env start endP step thr floorC).2, P w := by
  intro w hw
  simp only [calibrate] at hw
  split at hw
  · rename_i out ws hup
    have hall := upLoop_writes env floorC thr P hP
      (rangeAsc (max start floorC) endP step) 0 [] (by simp)
    rw [hup] at hall
    exact hall w hw
  · rename_i k ws hup
    have hall := upLoop_writes env floorC thr P hP
      (rangeAsc (max start floorC) endP step) 0 [] (by simp)
    rw [hup] at hall
    exact hall w hw
  · rename_i sp r k ws hup
    have hup_all := upLoop_writes env floorC thr P hP
      (rangeAsc (max start floorC) endP step) 0 [] (by simp)
    rw [hup] at hup_all
    split at hw
    · rename_i out2 ws2 hdown
      have hall := downLoop_writes env floorC thr P hP
        (rangeDesc sp (max start floorC) step) k ws sp hup_all
      rw [hdown] at hall
      exact hall w hw
    · rename_i m2 k2 ws2 hdown
      have hall := downLoop_writes env floorC thr P hP
        (rangeDesc sp (max start floorC) step) k ws sp hup_all
      rw [hdown] at hall
      rcases List.mem_append.1 hw with h | h
      · exact hall w h
      · rw [List.mem_singleton.1 h]; exact hP m2

lemma probeEvents_mem {e : OutEnv} {ev : PwmEvent} (h : ev ∈ probeEvents e) :
    ∃ v, e.prevPwmRaw = some v ∧ ev = PwmEvent.rawWrite v := by
  rw [probeEvents] at h
  split at h
  · split at h
    · rename_i v hv
      rcases List.mem_cons.1 h with rfl | h2
      · exact ⟨v, hv, rfl⟩
      · rw [List.mem_singleton.1 h2]
        exact ⟨v, hv, rfl⟩
    · simp at h
  · simp at h

lemma processOutput_events (floorI hold : ℤ) (temps : List TempDef) (e : OutEnv) :
    ∀ ev ∈ (processOutput floorI hold temps e).1,
      (∃ p, ev = PwmEvent.pctWrite p ∧ (floorI : ℚ) ≤ p) ∨
      (∃ v, e.prevPwmRaw = some v ∧ ev = PwmEvent.rawWrite v) := by
  intro ev hev
  simp only [processOutput] at hev
  split at hev
  · split at hev
    · rcases List.mem_append.1 hev with h1 | h2
      · rcases List.mem_append.1 h1 with hp | hb
        · exact Or.inr (probeEvents_mem hp)
        · rw [List.mem_singleton.1 hb]
          exact Or.inl ⟨_, rfl, qclamp_lo_le _ _ _⟩
      · revert h2
        split
        · rename_i v hv
          intro h2
          rw [List.mem_singleton.1 h2]
          exact Or.inr ⟨v, hv, rfl⟩
        · intro h2; simp at h2
    · rcases List.mem_append.1 hev with h1 | h2
      · rcases List.mem_append.1 h1 with hp | hb
        · exact Or.inr (probeEvents_mem hp)
        · rcases List.mem_cons.1 hb with rfl | hb2
          · exact Or.inl ⟨_, rfl, qclamp_lo_le _ _ _⟩
          · rcases List.mem_cons.1 hb2 with rfl | hb3
            · exact Or.inl ⟨_, rfl, qclamp_lo_le _ _ _⟩
            · rw [List.mem_singleton.1 hb3]
              exact Or.inl ⟨_, rfl, qclamp_lo_le _ _ _⟩
      · revert h2
        split
        · rename_i v hv
          intro h2
          rw [List.mem_singleton.1 h2]
          exact Or.inr ⟨v, hv, rfl⟩
        · intro h2; simp at h2
  · simp at hev

lemma inferCoupling_events (floorI hold : ℤ) (temps : List TempDef) :
    ∀ (outs : List (String × OutEnv)),
      ∀ ev ∈ (inferCoupling floorI hold temps outs).1,
        (∃ p, ev = PwmEvent.pctWrite p ∧ (floorI : ℚ) ≤ p) ∨
        (∃ lbl e v, (lbl, e) ∈ outs ∧ e.prevPwmRaw = some v ∧
          ev = PwmEvent.rawWrite v) := by
  intro outs
  induction outs with
  | nil => intro ev hev; simp [inferCoupling] at hev
  | cons le rest ih =>
    obtain ⟨lbl, e⟩ := le
    intro ev hev
    simp only [inferCoupling] at hev
    rcases List.mem_append.1 hev with h1 | h2
    · rcases processOutput_events floorI hold temps e ev h1 with hp | ⟨v, hv, hev'⟩
      · exact Or.inl hp
      · exact Or.inr ⟨lbl, e, v, List.mem_cons_self _ _, hv, hev'⟩
    · rcases ih ev h2 with hp | ⟨lbl', e', v, hmem, hv, hev'⟩
      · exact Or.inl hp
      · exact Or.inr ⟨lbl', e', v, List.mem_cons_of_mem _ hmem, hv, hev'⟩

/-- C1 counterexample: an output idling at raw duty 0 before the
experiment.  With `floor_pct = 20`, coupling inference issues writes that
command duty 0 — the probe's no-op write (and the snapshot restore)
replay the raw pre-experiment value, below the floor. -/
def c1CexEnv : OutEnv :=
  { probeWritable := true, prevEn := some "2", prevPwmRaw := some 0,
    rpmBefore := none, rpmAfter := none,
    tBase := fun _ => none, tHigh := fun _ => none }

theorem claim_c1_counterexample :
    ∃ ev ∈ (inferCoupling 20 100 [] [("fan1", c1CexEnv)]).1,
      eventDuty ev < 20 := by
  refine ⟨.rawWrite 0, ?_, by norm_num [eventDuty]⟩
  simp only [inferCoupling, processOutput, probeEvents, c1CexEnv]
  simp

/-- C1 amended: every duty write issued through the percent-based write
paths respects the floor — all of `calibrate`'s writes (through
`safe_write`) command at least `floor` whenever `floor ≤ 100`, and every
`pctWrite` issued by coupling inference commands at least its floor — but
the raw writes of coupling inference (the probe's no-op write and the
snapshot restores) replay an output's snapshotted pre-experiment raw
value, which may lie below the floor. -/
theorem claim_c1_floor (env : CalEnv) (start endP step thr floorC : ℤ)
    (hfl : floorC ≤ 100)
    (floorI hold : ℤ) (temps : List TempDef) (outs : List (String × OutEnv)) :
    (∀ w ∈ (calibrate env start endP step thr floorC).2, (floorC : ℚ) ≤ w) ∧
    (∀ ev ∈ (inferCoupling floorI hold temps outs).1,
      (∃ p, ev = PwmEvent.pctWrite p ∧ (floorI : ℚ) ≤ p) ∨
      (∃ lbl e v, (lbl, e) ∈ outs ∧ e.prevPwmRaw = some v ∧
        ev = PwmEvent.rawWrite v)) :=
  ⟨calibrate_writes env start endP step thr floorC (fun w => (floorC : ℚ) ≤ w)
      (safeWriteVal_ge hfl),
   inferCoupling_events floorI hold temps outs⟩

/-- C1 witness: in the spec's calibration scenario every logged write is
at least the floor 20 (checked at the write of duty 25), and the coupling
run's first write on the idle output is the raw replay of snapshot 0. -/
theorem claim_c1_witness :
    (20 : ℚ) ≤ 25 ∧
    ((∃ p, PwmEvent.rawWrite 0 = PwmEvent.pctWrite p ∧ (20 : ℚ) ≤ p) ∨
     (∃ lbl e v, (lbl, e) ∈ [("fan1", c1CexEnv)] ∧ e.prevPwmRaw = some v ∧
       PwmEvent.rawWrite (0 : ℤ) = PwmEvent.rawWrite v)) :=
  ⟨(claim_c1_floor calWitEnv 0 100 5 100 20 (by norm_num) 20 100 [] []).1
      25 (by decide),
   (claim_c1_floor calWitEnv 0 100 5 100 20 (by norm_num) 20 100 []
      [("fan1", c1CexEnv)]).2 (PwmEvent.rawWrite 0)
      (by simp only [inferCoupling, processOutput, probeEvents, c1CexEnv]; simp)⟩
